import Mathlib

/-!
Verification development for the frunk_utils crate.

Shallow embedding of src/cons_list.rs (the homogeneous, stack-allocated
cons list with a drain-on-drop double-ended consuming iterator),
src/lib.rs (the Func/Poly traversal engine over frunk HLists: HMappable
map, ForEach, MapToList, Identity, fields_into_iter) and
src/futures/hmappable.rs, src/futures/map_to_list.rs,
src/futures/for_each.rs (the async variants; the concurrent ones built
on the futures join! combinator).

The Rust code is generic over element types; the embedding instantiates
every element type with an arbitrary Lean type parameter, so each HList
or ConsList value becomes a Lean inductive list over that parameter
while the structural recursion of every Rust impl is kept line for line.
Machine integers (usize indices) are modelled as Nat: the lists live on
the stack and never approach usize overflow.
-/

namespace FrunkUtils

/-- Embeds the node types of src/cons_list.rs: the repr(C) structs
`Cons<T, Tail>(T, Tail)` and `Nil`, instantiated at a homogeneous
element type α (`ConsListT<T>` bounds force every node of one list to
hold the same `T`). -/
inductive ConsListT (α : Type) : Type
  | nil : ConsListT α
  | cons (head : α) (tail : ConsListT α) : ConsListT α
  deriving DecidableEq

namespace ConsListT

variable {α : Type}

/-- Embeds the repr(C) memory layout of a chain of `Cons` nodes: the
head field sits first, the tail's elements follow contiguously.  This
flat sequence is what raw-pointer offset reads observe. -/
def toFlat : ConsListT α → List α
  | .nil => []
  | .cons head tail => head :: tail.toFlat

/-- Embeds the associated constant `LEN` (`0` for `Nil`,
`1 + Ts::LEN` for `Cons`). -/
def LEN : ConsListT α → Nat
  | .nil => 0
  | .cons _ tail => 1 + tail.LEN

/-- Embeds `ConsListT::as_slice`: `from_raw_parts` over the repr(C)
layout with length `LEN`, i.e. the flat element sequence. -/
def as_slice (l : ConsListT α) : List α := l.toFlat

/-- Embeds a single store through `as_mut_slice` at offset `i`: the
element in slot `i` of the repr(C) layout is replaced (out-of-range
stores are rejected by the slice's bounds check and change nothing). -/
def writeSlot : ConsListT α → Nat → α → ConsListT α
  | .nil, _, _ => .nil
  | .cons _ tail, 0, v => .cons v tail
  | .cons head tail, i + 1, v => .cons head (tail.writeSlot i v)

/-- Outcome of one `take_unchecked` call: the value read from the slot,
a fatal assertion (`panic!` or a firing `debug_assert!`), or an
unchecked out-of-bounds raw-pointer read (undefined behavior). -/
inductive TakeOutcome (α : Type) : Type
  | value (a : α) : TakeOutcome α
  | assertFailed : TakeOutcome α
  | undefined : TakeOutcome α
  deriving DecidableEq

/-- Embeds `take_unchecked(i)` from both impls in src/cons_list.rs,
parameterized by whether the build has debug assertions enabled.
The `Nil` impl is `panic!("Index out of bounds")` in every build.
The `Cons` impl is `debug_assert!(i < Self::LEN)` followed by a raw
`ptr::read` at offset `i` of the repr(C) layout, so in a release build
an out-of-range `i` reaches the unchecked read. -/
def take_outcome (debugBuild : Bool) (l : ConsListT α) (i : Nat) :
    ConsListT.TakeOutcome α :=
  match l with
  | .nil => .assertFailed
  | .cons _ _ =>
    if debugBuild ∧ ¬ i < l.LEN then .assertFailed
    else
      match l.toFlat[i]? with
      | some a => .value a
      | none => .undefined

end ConsListT

/-- Builds `ConsList::cons(e1, ConsList::cons(e2, ..., ConsList::nil()))`
from the textual element order `[e1, e2, ...]` — the shape the
`cons_list!` macro expands to (`ConsList::cons` wraps the `Cons` node
constructor; `ConsList::nil` wraps `Nil`). -/
def buildByCons {α : Type} (es : List α) : ConsListT α :=
  es.foldr ConsListT.cons ConsListT.nil

/-- Embeds `Iter<T, Ts>` from src/cons_list.rs: the `ManuallyDrop`
storage (kept intact — `take_unchecked` is a nondestructive
`ptr::read`) plus the `alive: Range<usize>` cursor pair. -/
structure Iter (α : Type) : Type where
  list : ConsListT α
  front : Nat
  back : Nat
  deriving DecidableEq

namespace Iter

variable {α : Type}

/-- Embeds `Iter::new`: wraps the list with `alive = 0..Ts::LEN`. -/
def new (l : ConsListT α) : Iter α := ⟨l, 0, l.LEN⟩

/-- Core of `Iterator::next`: `self.alive.next()` yields `front` when
`front < back` (advancing `front`), and the element is read by
`take_unchecked` at that index.  The taken index is kept alongside the
element for the destruction accounting; `none` in the inner read
models the out-of-range read that the alive-range invariant makes
unreachable. -/
def nextPair (it : Iter α) : Option ((Nat × α) × Iter α) :=
  if it.front < it.back then
    match it.list.toFlat[it.front]? with
    | some a => some ((it.front, a), { it with front := it.front + 1 })
    | none => none
  else none

/-- Embeds `Iterator::next` for `Iter`. -/
def next (it : Iter α) : Option (α × Iter α) :=
  it.nextPair.map fun (p, it2) => (p.2, it2)

/-- Core of `DoubleEndedIterator::next_back`: `self.alive.next_back()`
yields `back - 1` when `front < back` (decrementing `back`), and the
element is read by `take_unchecked` at that index. -/
def nextBackPair (it : Iter α) : Option ((Nat × α) × Iter α) :=
  if it.front < it.back then
    match it.list.toFlat[it.back - 1]? with
    | some a => some ((it.back - 1, a), { it with back := it.back - 1 })
    | none => none
  else none

/-- Embeds `DoubleEndedIterator::next_back` for `Iter`. -/
def next_back (it : Iter α) : Option (α × Iter α) :=
  it.nextBackPair.map fun (p, it2) => (p.2, it2)

/-- Embeds `ExactSizeIterator::len`: `self.alive.len() = back - front`. -/
def len (it : Iter α) : Nat := it.back - it.front

/-- Repeatedly calls `next` (recording taken indices) until `None`;
the fuel argument bounds the loop and `it.len` fuel always suffices. -/
def collectPairs : Nat → Iter α → List (Nat × α)
  | 0, _ => []
  | fuel + 1, it =>
    match it.nextPair with
    | none => []
    | some (p, it2) => p :: collectPairs fuel it2

/-- Embeds draining the iterator forward to exhaustion: both
`Iterator::collect` and the `Drop` impl's `for _ in self {}` loop are
this sequence of `next` calls; `collect` keeps the elements, `Drop`
discards them. -/
def collect (it : Iter α) : List α :=
  (collectPairs it.len it).map Prod.snd

/-- The indices drained by the `Drop` impl of a (possibly non-exhausted)
iterator: the `for _ in self {}` loop takes exactly the still-alive
indices through repeated `next` calls. -/
def dropDrainPairs (it : Iter α) : List (Nat × α) :=
  collectPairs it.len it

/-- Repeatedly calls `next_back` (recording taken indices) until
`None`, fueled like `collectPairs`. -/
def collectBackPairs : Nat → Iter α → List (Nat × α)
  | 0, _ => []
  | fuel + 1, it =>
    match it.nextBackPair with
    | none => []
    | some (p, it2) => p :: collectBackPairs fuel it2

end Iter

/-- Direction of one consuming step issued by the caller: a
`next` call or a `next_back` call. -/
inductive Dir : Type
  | fwd : Dir
  | bwd : Dir
  deriving DecidableEq

namespace Iter

variable {α : Type}

/-- One caller-issued step of the chosen direction. -/
def step (it : Iter α) : Dir → Option ((Nat × α) × Iter α)
  | .fwd => it.nextPair
  | .bwd => it.nextBackPair

/-- Runs an arbitrary caller-chosen mix of forward and backward steps,
returning the (index, element) pairs taken in order together with the
final iterator state.  Steps on an exhausted iterator return `None`
and take nothing, as in Rust. -/
def runSteps (it : Iter α) : List Dir → List (Nat × α) × Iter α
  | [] => ([], it)
  | d :: ds =>
    match it.step d with
    | none => it.runSteps ds
    | some (p, it2) =>
      let (ps, itf) := it2.runSteps ds
      (p :: ps, itf)

end Iter

/-- Embeds frunk's HList shape (`HNil` / `HCons { head, tail }`) as used
by the traversal impls in src/lib.rs, instantiated at a homogeneous
element type α (the Rust impls are by induction over the type list; the
recursion is identical at every node). -/
inductive HListM (α : Type) : Type
  | HNil : HListM α
  | HCons (head : α) (tail : HListM α) : HListM α
  deriving DecidableEq

namespace HListM

variable {α : Type}

/-- The elements of an HList, head first (declaration order of the
struct fields the `Generic` bridge produces). -/
def toList : HListM α → List α
  | .HNil => []
  | .HCons head tail => head :: tail.toList

/-- Number of elements of an HList. -/
def length : HListM α → Nat
  | .HNil => 0
  | .HCons _ tail => 1 + tail.length

end HListM

/-- Embeds the `Func` trait of src/lib.rs: `fn call(&mut self, i: I) ->
Self::Output`.  The `&mut self` receiver is modelled by threading an
explicit state of type σ through each call. -/
structure Func (σ α U : Type) : Type where
  call : σ → α → U × σ

/-- Embeds the `Identity` operation of src/lib.rs: `call` returns its
argument and touches no state. -/
def Identity (σ α : Type) : Func σ α α := ⟨fun s a => (a, s)⟩

/-- Lifts a pure function into a stateless `Func` (an operation whose
`call` never reads or writes its receiver). -/
def liftPure {α U : Type} (f : α → U) : Func Unit α U :=
  ⟨fun s a => (f a, s)⟩

namespace HListM

variable {σ α β U : Type}

/-- Embeds `impl HMappable<Poly<F>> for HCons` / frunk's `HNil` base
case from src/lib.rs: destructure, call the operation on the head
first, then recurse into the tail with the same (mutated) operation. -/
def map (f : Func σ α β) : HListM α → σ → HListM β × σ
  | .HNil, s => (.HNil, s)
  | .HCons head tail, s =>
    let (h, s1) := f.call s head
    let (t, s2) := tail.map f s1
    (.HCons h t, s2)

/-- Embeds `impl ForEach for HCons` / `for HNil` from src/lib.rs:
`f.call(head); tail.for_each(f)`.  The sequential async variant
(`AsyncForEach` / `AsyncLocalForEach` in src/futures/for_each.rs) has
the same recursion with an `.await` after each call and erases to the
same function. -/
def for_each (f : Func σ α Unit) : HListM α → σ → σ
  | .HNil, s => s
  | .HCons head tail, s =>
    let (_, s1) := f.call s head
    tail.for_each f s1

/-- Embeds `impl MapToList for HCons` / `for HNil` from src/lib.rs:
`ConsList::cons(f.call(head), tail.map_to_list(f))`, with Rust's
left-to-right argument evaluation calling the operation on the head
before recursing.  The sequential async variants in
src/futures/map_to_list.rs erase to the same function. -/
def map_to_list (f : Func σ α U) : HListM α → σ → ConsListT U × σ
  | .HNil, s => (.nil, s)
  | .HCons head tail, s =>
    let (h, s1) := f.call s head
    let (t, s2) := tail.map_to_list f s1
    (.cons h t, s2)

end HListM

/-- Embeds `WithGeneric::fields_into_iter` from src/lib.rs:
`self.map_to_list(Identity).into_iter()`, with the struct represented
by its `Generic` field list in declaration order and the resulting
iterator consumed to a list. -/
def fields_into_iter {α : Type} (hl : HListM α) : List α :=
  (Iter.new (hl.map_to_list (Identity Unit α) ()).1).collect

/-- Denotation of one completed async invocation: the instant the
future resolves and the value it resolves to.  The par traversal
operations (`AsyncParFunc` / `AsyncLocalParFunc`) take `&self`, so an
invocation's future depends only on its input. -/
structure Fut (β : Type) : Type where
  completesAt : Nat
  value : β

/-- Denotation of the futures `join!` combinator on two futures: both
run to completion, the pair of their values is produced once the later
of the two resolves, whichever finishes first. -/
def join2 {β γ : Type} (a : Fut β) (b : Fut γ) : Fut (β × γ) :=
  ⟨max a.completesAt b.completesAt, (a.value, b.value)⟩

/-- Embeds the `AsyncParFunc` (and `AsyncLocalParFunc`) trait of
src/futures/funcs.rs: `fn call(&self, i: I)` returns a future, here its
denotation. -/
structure ParFunc (α U : Type) : Type where
  call : α → Fut U

namespace HListM

variable {α β U : Type}

/-- Embeds `impl AsyncParHMappable for HCons` / `for HNil` from
src/futures/hmappable.rs: `join!(f.0.call(head), tail.par_map(f))`
launches the head's invocation and the tail's traversal together and
rebuilds `HCons { head, tail }` from the joined pair. -/
def par_map (f : ParFunc α β) : HListM α → Fut (HListM β)
  | .HNil => ⟨0, .HNil⟩
  | .HCons head tail =>
    let j := join2 (f.call head) (tail.par_map f)
    ⟨j.completesAt, .HCons j.value.1 j.value.2⟩

/-- Embeds `impl AsyncParMapToList for HCons` / `for HNil` from
src/futures/map_to_list.rs: `join!(f.0.call(head),
tail.par_map_to_list(f))` then `ConsList::cons(head, tail)`. -/
def par_map_to_list (f : ParFunc α U) : HListM α → Fut (ConsListT U)
  | .HNil => ⟨0, .nil⟩
  | .HCons head tail =>
    let j := join2 (f.call head) (tail.par_map_to_list f)
    ⟨j.completesAt, .cons j.value.1 j.value.2⟩

end HListM

/-- A fallible operation: `call` either produces a value and the next
state, or fails (a Rust panic unwinding out of the call), carrying the
failure payload ε. -/
structure TryFunc (σ α U ε : Type) : Type where
  call : σ → α → Except ε (U × σ)

namespace HListM

variable {σ α U ε : Type}

/-- Embeds `impl ForEach for HCons` (and the sequential async
`for_each` of src/futures/for_each.rs) under a fallible operation:
`f.call(head); tail.for_each(f)` — a failure unwinding out of
`f.call(head)` leaves the traversal immediately, untouched (there is no
catch, wrap or retry anywhere in the engine), and the tail is never
visited. -/
def for_each_try (f : TryFunc σ α Unit ε) : HListM α → σ → Except ε σ
  | .HNil, s => .ok s
  | .HCons head tail, s =>
    match f.call s head with
    | .error e => .error e
    | .ok (_, s1) => tail.for_each_try f s1

end HListM

namespace Spec

variable {σ α U ε : Type}

/-- Modelled from the spec: the caller invoking the operation directly
on each element in positional order, once per element — the reference
behavior the traversal engine is claimed to coincide with. -/
def callsInOrder (f : Func σ α U) : List α → σ → List U × σ
  | [], s => ([], s)
  | a :: as, s =>
    let (u, s1) := f.call s a
    let (us, s2) := callsInOrder f as s1
    (u :: us, s2)

/-- Modelled from the spec: the caller invoking a fallible operation
directly on each element in order, stopping at the first failure and
surfacing that failure verbatim. -/
def callsInOrderTry (f : TryFunc σ α Unit ε) : List α → σ → Except ε σ
  | [], s => .ok s
  | a :: as, s =>
    match f.call s a with
    | .error e => .error e
    | .ok (_, s1) => callsInOrderTry f as s1

end Spec

/-- The tracing operation: its state records, in order, every element
it has been handed; its result is unit. -/
def traceFunc (α : Type) : Func (List α) α Unit :=
  ⟨fun s a => ((), s ++ [a])⟩

section Lemmas

variable {α : Type}

lemma ConsListT.toFlat_length (l : ConsListT α) :
    l.toFlat.length = l.LEN := by
  induction l with
  | nil => rfl
  | cons h t ih => simp [ConsListT.toFlat, ConsListT.LEN, ih, Nat.add_comm]

lemma Iter.collectPairs_eq :
    ∀ (n : Nat) (it : Iter α), it.back ≤ it.list.LEN →
      n = it.back - it.front →
      Iter.collectPairs n it =
        (List.range' it.front n).zip
          ((it.list.toFlat.drop it.front).take n) := by
  intro n
  induction n with
  | zero => intro it hb hn; simp [Iter.collectPairs]
  | succ n ih =>
    intro it hb hn
    have hfb : it.front < it.back := by omega
    have hlen : it.front < it.list.toFlat.length := by
      rw [ConsListT.toFlat_length]; omega
    have hget : it.list.toFlat[it.front]? =
        some (it.list.toFlat[it.front]) := List.getElem?_eq_getElem hlen
    have hrec := ih { it with front := it.front + 1 }
      (by simpa using hb) (by simp; omega)
    simp only [Iter.collectPairs, Iter.nextPair, if_pos hfb, hget]
    rw [hrec, List.range'_succ]
    rw [List.drop_eq_getElem_cons hlen, List.take_succ_cons, List.zip_cons_cons]

lemma Iter.collect_new (l : ConsListT α) :
    (Iter.new l).collect = l.toFlat := by
  have h := Iter.collectPairs_eq l.LEN (Iter.new l) (le_refl _) (by simp [Iter.new])
  have hlen : l.toFlat.length = l.LEN := ConsListT.toFlat_length l
  simp only [Iter.collect, Iter.len, Iter.new, Nat.sub_zero] at h ⊢
  rw [h]
  simp only [List.drop_zero]
  rw [List.take_of_length_le (le_of_eq hlen), List.map_snd_zip]
  rw [hlen, List.length_range']

lemma Iter.collectBackPairs_eq :
    ∀ (n : Nat) (it : Iter α), it.back ≤ it.list.LEN →
      n = it.back - it.front →
      Iter.collectBackPairs n it =
        ((List.range' it.front n).zip
          ((it.list.toFlat.drop it.front).take n)).reverse := by
  intro n
  induction n with
  | zero => intro it hb hn; simp [Iter.collectBackPairs]
  | succ n ih =>
    intro it hb hn
    have hfb : it.front < it.back := by omega
    have hlen : it.back - 1 < it.list.toFlat.length := by
      rw [ConsListT.toFlat_length]; omega
    have hget : it.list.toFlat[it.back - 1]? =
        some (it.list.toFlat[it.back - 1]) := List.getElem?_eq_getElem hlen
    have hrec := ih { it with back := it.back - 1 }
      (by simp; omega) (by simp; omega)
    simp only [Iter.collectBackPairs, Iter.nextBackPair, if_pos hfb, hget]
    rw [hrec]
    have hfn : it.front + n = it.back - 1 := by omega
    have hslice : (it.list.toFlat.drop it.front).take (n + 1) =
        (it.list.toFlat.drop it.front).take n ++ [it.list.toFlat[it.back - 1]] := by
      rw [List.take_succ, List.getElem?_drop, hfn, hget]
      rfl
    have hlr : (List.range' it.front n).length =
        ((it.list.toFlat.drop it.front).take n).length := by
      rw [List.length_range', List.length_take, List.length_drop,
        ConsListT.toFlat_length]
      omega
    rw [List.range'_concat, hslice, List.zip_append hlr]
    simp [hfn]

lemma ConsListT.writeSlot_toFlat (l : ConsListT α) :
    ∀ (i : Nat) (v : α), (l.writeSlot i v).toFlat = l.toFlat.set i v := by
  induction l with
  | nil => intro i v; rfl
  | cons h t ih =>
    intro i v
    cases i with
    | zero => rfl
    | succ i => simp [ConsListT.writeSlot, ConsListT.toFlat, ih]

lemma buildByCons_toFlat (es : List α) : (buildByCons es).toFlat = es := by
  induction es with
  | nil => rfl
  | cons e es ih => simp [buildByCons, ConsListT.toFlat] at ih ⊢; exact ih

lemma Iter.runSteps_spec :
    ∀ (ds : List Dir) (it : Iter α), it.front ≤ it.back →
      it.back ≤ it.list.LEN →
      (it.runSteps ds).2.list = it.list ∧
      (it.runSteps ds).2.front ≤ (it.runSteps ds).2.back ∧
      (it.runSteps ds).2.back ≤ it.back ∧
      it.front ≤ (it.runSteps ds).2.front ∧
      (((it.runSteps ds).1.map Prod.fst) ++
          List.range' (it.runSteps ds).2.front
            ((it.runSteps ds).2.back - (it.runSteps ds).2.front)).Perm
        (List.range' it.front (it.back - it.front)) ∧
      ∀ p ∈ (it.runSteps ds).1, it.list.toFlat[p.1]? = some p.2 := by
  intro ds
  induction ds with
  | nil =>
    intro it hfb hb
    refine ⟨rfl, hfb, le_refl _, le_refl _, ?_, ?_⟩
    · simp only [Iter.runSteps, List.map_nil, List.nil_append]
      exact List.Perm.refl _
    · intro p hp; simp [Iter.runSteps] at hp
  | cons d ds ih =>
    intro it hfb hb
    by_cases hlt : it.front < it.back
    · cases d with
      | fwd =>
        have hlen : it.front < it.list.toFlat.length := by
          rw [ConsListT.toFlat_length]; omega
        have hget : it.list.toFlat[it.front]? =
            some (it.list.toFlat[it.front]) := List.getElem?_eq_getElem hlen
        have hstep : it.step Dir.fwd =
            some ((it.front, it.list.toFlat[it.front]),
              { it with front := it.front + 1 }) := by
          simp [Iter.step, Iter.nextPair, if_pos hlt, hget]
        rcases hrs : Iter.runSteps { it with front := it.front + 1 } ds
          with ⟨ps, itf⟩
        have hrun : it.runSteps (Dir.fwd :: ds) = (( it.front,
            it.list.toFlat[it.front]) :: ps, itf) := by
          simp [Iter.runSteps, hstep, hrs]
        obtain ⟨h1, h2, h3, h4, h5, h6⟩ :=
          ih { it with front := it.front + 1 } (by simpa using hlt) (by simpa using hb)
        rw [hrs] at h1 h2 h3 h4 h5 h6
        simp only [hrun]
        refine ⟨h1, h2, by simp at h3 ⊢; omega, by simp at h4 ⊢; omega, ?_, ?_⟩
        · have hr : List.range' it.front (it.back - it.front) =
              it.front :: List.range' (it.front + 1) (it.back - (it.front + 1)) := by
            have : it.back - it.front = (it.back - (it.front + 1)) + 1 := by omega
            rw [this, List.range'_succ]
          rw [hr]
          simpa using h5.cons it.front
        · intro p hp
          rcases List.mem_cons.mp hp with h | h
          · subst h; exact hget
          · exact h6 p h
      | bwd =>
        have hlen : it.back - 1 < it.list.toFlat.length := by
          rw [ConsListT.toFlat_length]; omega
        have hget : it.list.toFlat[it.back - 1]? =
            some (it.list.toFlat[it.back - 1]) := List.getElem?_eq_getElem hlen
        have hstep : it.step Dir.bwd =
            some ((it.back - 1, it.list.toFlat[it.back - 1]),
              { it with back := it.back - 1 }) := by
          simp [Iter.step, Iter.nextBackPair, if_pos hlt, hget]
        rcases hrs : Iter.runSteps { it with back := it.back - 1 } ds
          with ⟨ps, itf⟩
        have hrun : it.runSteps (Dir.bwd :: ds) = (( it.back - 1,
            it.list.toFlat[it.back - 1]) :: ps, itf) := by
          simp [Iter.runSteps, hstep, hrs]
        obtain ⟨h1, h2, h3, h4, h5, h6⟩ :=
          ih { it with back := it.back - 1 } (by simp; omega) (by simp; omega)
        rw [hrs] at h1 h2 h3 h4 h5 h6
        simp only [hrun]
        refine ⟨h1, h2, by simp at h3 ⊢; omega, by simpa using h4, ?_, ?_⟩
        · have hcard : it.back - it.front = (it.back - 1 - it.front) + 1 := by
            omega
          have hr : List.range' it.front (it.back - it.front) =
              List.range' it.front (it.back - 1 - it.front) ++ [it.back - 1] := by
            rw [hcard, List.range'_concat]
            congr 1
            simp
            omega
          rw [hr]
          simp only [List.map_cons, List.cons_append]
          have hx : (List.map Prod.fst ps ++
              List.range' itf.front (itf.back - itf.front)).Perm
                (List.range' it.front (it.back - 1 - it.front)) := by
            simpa using h5
          exact (hx.cons (it.back - 1)).trans
            (List.perm_append_singleton _ _).symm
        · intro p hp
          rcases List.mem_cons.mp hp with h | h
          · subst h; exact hget
          · exact h6 p h
    · have hstep : it.step d = none := by
        cases d <;> simp [Iter.step, Iter.nextPair, Iter.nextBackPair, if_neg hlt]
      have hrun : it.runSteps (d :: ds) = it.runSteps ds := by
        simp [Iter.runSteps, hstep]
      rw [hrun]
      exact ih it hfb hb

lemma HListM.map_eq_calls {σ β : Type} (f : Func σ α β) :
    ∀ (hl : HListM α) (s : σ),
      (hl.map f s).1.toList = (Spec.callsInOrder f hl.toList s).1 ∧
      (hl.map f s).2 = (Spec.callsInOrder f hl.toList s).2 := by
  intro hl
  induction hl with
  | HNil => intro s; exact ⟨rfl, rfl⟩
  | HCons h t iht =>
    intro s
    cases hc : f.call s h with
    | mk u s1 =>
      obtain ⟨ih1, ih2⟩ := iht s1
      simp [HListM.map, HListM.toList, Spec.callsInOrder, hc, ih1, ih2]

lemma HListM.for_each_eq_calls {σ : Type} (f : Func σ α Unit) :
    ∀ (hl : HListM α) (s : σ),
      hl.for_each f s = (Spec.callsInOrder f hl.toList s).2 := by
  intro hl
  induction hl with
  | HNil => intro s; rfl
  | HCons h t iht =>
    intro s
    cases hc : f.call s h with
    | mk u s1 =>
      simp [HListM.for_each, HListM.toList, Spec.callsInOrder, hc, iht s1]

lemma HListM.map_to_list_eq_calls {σ U : Type} (f : Func σ α U) :
    ∀ (hl : HListM α) (s : σ),
      (hl.map_to_list f s).1.toFlat = (Spec.callsInOrder f hl.toList s).1 ∧
      (hl.map_to_list f s).2 = (Spec.callsInOrder f hl.toList s).2 := by
  intro hl
  induction hl with
  | HNil => intro s; exact ⟨rfl, rfl⟩
  | HCons h t iht =>
    intro s
    cases hc : f.call s h with
    | mk u s1 =>
      obtain ⟨ih1, ih2⟩ := iht s1
      simp [HListM.map_to_list, HListM.toList, ConsListT.toFlat,
        Spec.callsInOrder, hc, ih1, ih2]

lemma HListM.map_to_list_LEN {σ U : Type} (f : Func σ α U) :
    ∀ (hl : HListM α) (s : σ),
      ((hl.map_to_list f s).1).LEN = hl.length := by
  intro hl
  induction hl with
  | HNil => intro s; rfl
  | HCons h t iht =>
    intro s
    cases hc : f.call s h with
    | mk u s1 =>
      simp [HListM.map_to_list, HListM.length, ConsListT.LEN, hc, iht s1]

lemma Spec.callsInOrder_trace :
    ∀ (l tr : List α),
      Spec.callsInOrder (traceFunc α) l tr = (l.map fun _ => (), tr ++ l) := by
  intro l
  induction l with
  | nil => intro tr; simp [Spec.callsInOrder]
  | cons a l ih =>
    intro tr
    have hc : (traceFunc α).call tr a = ((), tr ++ [a]) := rfl
    simp only [Spec.callsInOrder, hc]
    rw [ih (tr ++ [a])]
    simp

lemma Spec.callsInOrder_identity {σ : Type} :
    ∀ (l : List α) (s : σ),
      Spec.callsInOrder (Identity σ α) l s = (l, s) := by
  intro l
  induction l with
  | nil => intro s; rfl
  | cons a l ih =>
    intro s
    have hc : (Identity σ α).call s a = (a, s) := rfl
    simp only [Spec.callsInOrder, hc]
    rw [ih s]

lemma HListM.par_map_value {β : Type} (f : ParFunc α β) :
    ∀ (hl : HListM α),
      (hl.par_map f).value =
        (hl.map (liftPure fun a => (f.call a).value) ()).1 := by
  intro hl
  induction hl with
  | HNil => rfl
  | HCons h t iht => simp [HListM.par_map, HListM.map, join2, liftPure, iht]

lemma HListM.par_map_toList {β : Type} (f : ParFunc α β) :
    ∀ (hl : HListM α),
      (hl.par_map f).value.toList =
        hl.toList.map fun a => (f.call a).value := by
  intro hl
  induction hl with
  | HNil => rfl
  | HCons h t iht =>
    simp [HListM.par_map, HListM.toList, join2, iht]

lemma HListM.par_map_to_list_toFlat {U : Type} (f : ParFunc α U) :
    ∀ (hl : HListM α),
      (hl.par_map_to_list f).value.toFlat =
        hl.toList.map fun a => (f.call a).value := by
  intro hl
  induction hl with
  | HNil => rfl
  | HCons h t iht =>
    simp [HListM.par_map_to_list, HListM.toList, ConsListT.toFlat, join2, iht]

lemma HListM.for_each_try_eq {σ ε : Type} (f : TryFunc σ α Unit ε) :
    ∀ (hl : HListM α) (s : σ),
      hl.for_each_try f s = Spec.callsInOrderTry f hl.toList s := by
  intro hl
  induction hl with
  | HNil => intro s; rfl
  | HCons h t iht =>
    intro s
    cases hc : f.call s h with
    | error e => simp [HListM.for_each_try, HListM.toList, Spec.callsInOrderTry, hc]
    | ok p =>
      simp [HListM.for_each_try, HListM.toList, Spec.callsInOrderTry, hc, iht p.2]

lemma zip_range_slice_mem {L : List α} :
    ∀ (n f : Nat), f + n ≤ L.length →
      ∀ p ∈ (List.range' f n).zip ((L.drop f).take n), L[p.1]? = some p.2 := by
  intro n
  induction n with
  | zero => intro f hfn p hp; simp at hp
  | succ n ih =>
    intro f hfn p hp
    have hf : f < L.length := by omega
    rw [List.range'_succ, List.drop_eq_getElem_cons hf, List.take_succ_cons,
      List.zip_cons_cons] at hp
    rcases List.mem_cons.mp hp with h | h
    · subst h
      exact List.getElem?_eq_getElem hf
    · exact ih (f + 1) (by omega) p h

lemma Spec.callsInOrder_liftPure {U : Type} (g : α → U) :
    ∀ (l : List α), Spec.callsInOrder (liftPure g) l () = (l.map g, ()) := by
  intro l
  induction l with
  | nil => rfl
  | cons a l ih =>
    have hc : (liftPure g).call () a = (g a, ()) := rfl
    simp only [Spec.callsInOrder, hc]
    rw [ih]
    rfl

lemma HListM.par_congr {β : Type} (f g : ParFunc α β)
    (h : ∀ a, (f.call a).value = (g.call a).value) :
    ∀ hl : HListM α, (hl.par_map f).value = (hl.par_map g).value ∧
      (hl.par_map_to_list f).value = (hl.par_map_to_list g).value := by
  intro hl
  induction hl with
  | HNil => exact ⟨rfl, rfl⟩
  | HCons hd t iht =>
    simp [HListM.par_map, HListM.par_map_to_list, join2, h hd, iht.1, iht.2]

end Lemmas

/-- C3: into_iterator().collect() on a sequence built by prepending
e1, e2, ..., eN in that order (the nested ConsList::cons shape the
cons_list! macro builds) yields exactly [e1, e2, ..., eN]. -/
theorem order_preservation {α : Type} (es : List α) :
    (Iter.new (buildByCons es)).collect = es := by
  rw [Iter.collect_new, buildByCons_toFlat]

/-- C6: for a homogeneous sequence the as_slice view equals the
collection obtained by consuming the iterator; a store through
as_mut_slice at any slot is observed by a subsequent consumption; the
empty sequence's view is the empty slice and its iterator is
immediately exhausted. -/
theorem bulk_view_equivalence {α : Type} (l : ConsListT α) (i : Nat) (v : α) :
    l.as_slice = (Iter.new l).collect ∧
    (Iter.new (l.writeSlot i v)).collect = ((Iter.new l).collect).set i v ∧
    (ConsListT.nil : ConsListT α).as_slice = [] ∧
    (Iter.new (ConsListT.nil : ConsListT α)).next = none := by
  refine ⟨?_, ?_, rfl, rfl⟩
  · rw [Iter.collect_new]; rfl
  · rw [Iter.collect_new, Iter.collect_new, ConsListT.writeSlot_toFlat]

/-- C2: every traversal scheme (map, for-each, map-to-uniform-list)
invokes the caller-supplied operation exactly as the caller would have
invoked it directly on each element in positional order — once per
element, ownership of each element passed into exactly one call; with
the tracing operation, the trace after for-each is exactly the element
list in order. -/
theorem traversal_invokes_in_order :
    ∀ (σ α β U : Type) (f : Func σ α β) (g : Func σ α Unit) (k : Func σ α U)
      (hl : HListM α) (s : σ) (tr : List α),
      ((hl.map f s).1.toList = (Spec.callsInOrder f hl.toList s).1 ∧
        (hl.map f s).2 = (Spec.callsInOrder f hl.toList s).2) ∧
      hl.for_each g s = (Spec.callsInOrder g hl.toList s).2 ∧
      ((hl.map_to_list k s).1.as_slice = (Spec.callsInOrder k hl.toList s).1 ∧
        (hl.map_to_list k s).2 = (Spec.callsInOrder k hl.toList s).2) ∧
      hl.for_each (traceFunc α) tr = tr ++ hl.toList := by
  intro σ α β U f g k hl s tr
  refine ⟨HListM.map_eq_calls f hl s, HListM.for_each_eq_calls g hl s,
    HListM.map_to_list_eq_calls k hl s, ?_⟩
  rw [HListM.for_each_eq_calls, Spec.callsInOrder_trace]

/-- C7: map_to_list over a sequence of N elements always produces a
uniform-typed sequence of exactly N elements, and for an operation
returning U the i-th result element is the operation applied to the
i-th original element (result flat contents = pointwise map). -/
theorem map_to_list_shape :
    ∀ (σ α U : Type) (f : Func σ α U) (g : α → U) (hl : HListM α) (s : σ),
      ((hl.map_to_list f s).1).LEN = hl.length ∧
      (hl.map_to_list (liftPure g) ()).1.as_slice = hl.toList.map g := by
  intro σ α U f g hl s
  refine ⟨HListM.map_to_list_LEN f hl s, ?_⟩
  have h := (HListM.map_to_list_eq_calls (liftPure g) hl ()).1
  rw [Spec.callsInOrder_liftPure] at h
  exact h

/-- C9: the traversal engine has no failure path of its own — running
for-each with a fallible operation gives exactly the result of the
caller invoking the operation directly on each element in order (the
first failure surfaces verbatim, nothing is wrapped, caught or
retried), and a failing invocation aborts the traversal with exactly
that failure. -/
theorem error_propagation :
    ∀ (σ α ε : Type) (f : TryFunc σ α Unit ε) (hl : HListM α) (s : σ),
      hl.for_each_try f s = Spec.callsInOrderTry f hl.toList s ∧
      ∀ (a : α) (t : HListM α) (e : ε), f.call s a = Except.error e →
        (HListM.HCons a t).for_each_try f s = Except.error e := by
  intro σ α ε f hl s
  refine ⟨HListM.for_each_try_eq f hl s, ?_⟩
  intro a t e he
  simp [HListM.for_each_try, he]

/-- C9 witness: a concrete fallible operation failing on the first
element makes the traversal surface exactly that error. -/
theorem error_propagation_witness :
    (HListM.HCons 0 HListM.HNil).for_each_try
      (⟨fun s a => if a = 0 then Except.error 99 else Except.ok ((), s)⟩ :
        TryFunc Unit Nat Unit Nat) () = Except.error 99 :=
  (error_propagation Unit Nat Nat
    ⟨fun s a => if a = 0 then Except.error 99 else Except.ok ((), s)⟩
    HListM.HNil ()).2 0 HListM.HNil 99 rfl

/-- C10: for a struct whose Generic field list (declaration order) is
hl, fields_into_iter yields exactly the field values unchanged in
order, and the built-in Identity operation returns its argument
unchanged. -/
theorem fields_into_iter_identity :
    ∀ (σ α : Type) (hl : HListM α) (s : σ) (a : α),
      fields_into_iter hl = hl.toList ∧ (Identity σ α).call s a = (a, s) := by
  intro σ α hl s a
  refine ⟨?_, rfl⟩
  unfold fields_into_iter
  rw [Iter.collect_new]
  have h := (HListM.map_to_list_eq_calls (Identity Unit α) hl ()).1
  rw [Spec.callsInOrder_identity] at h
  exact h

/-- C4 counterexample: in a release build (debug assertions off), an
out-of-range take on a non-empty list does not fail an assertion — it
reaches the unchecked out-of-bounds pointer read. -/
theorem take_out_of_range_counterexample :
    ConsListT.take_outcome false (ConsListT.cons (0 : Nat) ConsListT.nil) 1 ≠
      ConsListT.TakeOutcome.assertFailed := by decide

/-- C4 (amended): an out-of-range take on the empty sequence is a fatal
assertion in every build; on a non-empty sequence the range check is
only a debug assertion, so a checked (debug) build crashes loudly while
a release build performs an unchecked out-of-bounds read (undefined
behavior) instead of failing an assertion. -/
theorem take_out_of_range_amended {α : Type} (debugBuild : Bool)
    (l : ConsListT α) (i : Nat) (hout : l.LEN ≤ i) :
    (l = ConsListT.nil →
      ConsListT.take_outcome debugBuild l i = ConsListT.TakeOutcome.assertFailed) ∧
    ConsListT.take_outcome true l i = ConsListT.TakeOutcome.assertFailed ∧
    (l ≠ ConsListT.nil →
      ConsListT.take_outcome false l i = ConsListT.TakeOutcome.undefined) := by
  cases l with
  | nil =>
    refine ⟨fun _ => rfl, rfl, fun h => absurd rfl h⟩
  | cons h t =>
    have hnot : ¬ i < (ConsListT.cons h t).LEN := by omega
    have hnone : (ConsListT.cons h t).toFlat[i]? = none := by
      apply List.getElem?_eq_none
      rw [ConsListT.toFlat_length]
      exact hout
    refine ⟨?_, ?_, fun _ => ?_⟩
    · intro hc; cases hc
    · simp [ConsListT.take_outcome, hnot]
    · simp [ConsListT.take_outcome, hnot, hnone]

/-- C4 witness: the amended claim at a concrete out-of-range release
build call on a one-element list. -/
theorem take_out_of_range_witness :
    ConsListT.take_outcome false (ConsListT.cons (7 : Nat) ConsListT.nil) 3 =
      ConsListT.TakeOutcome.undefined :=
  (take_out_of_range_amended false (ConsListT.cons 7 ConsListT.nil) 3
    (by decide)).2.2 (by decide)

/-- C1: for any sequence and any mix of forward and backward steps
consumed before the iterator is dropped, the indices taken by the
caller plus the indices drained by the iterator's teardown are exactly
0..N-1, each exactly once (never zero times, never twice); the teardown
drains its indices in strictly ascending order; and every taken or
drained index carries exactly the element stored in that slot. -/
theorem exactly_once_destruction {α : Type} (l : ConsListT α) (ds : List Dir) :
    ((((Iter.new l).runSteps ds).1 ++
        ((Iter.new l).runSteps ds).2.dropDrainPairs).map Prod.fst).Perm
      (List.range l.LEN) ∧
    List.Pairwise (· < ·)
      ((((Iter.new l).runSteps ds).2.dropDrainPairs).map Prod.fst) ∧
    ∀ p ∈ ((Iter.new l).runSteps ds).1 ++
        ((Iter.new l).runSteps ds).2.dropDrainPairs,
      l.toFlat[p.1]? = some p.2 := by
  obtain ⟨h1, h2, h3, h4, h5, h6⟩ :=
    Iter.runSteps_spec ds (Iter.new l) (by simp [Iter.new]) (by simp [Iter.new])
  have hlist : ((Iter.new l).runSteps ds).2.list = l := h1
  have hback : ((Iter.new l).runSteps ds).2.back ≤ l.LEN := h3
  have hlb : ((Iter.new l).runSteps ds).2.back ≤
      ((Iter.new l).runSteps ds).2.list.LEN := by rw [hlist]; exact hback
  have hdp : ((Iter.new l).runSteps ds).2.dropDrainPairs =
      (List.range' ((Iter.new l).runSteps ds).2.front
          (((Iter.new l).runSteps ds).2.back - ((Iter.new l).runSteps ds).2.front)).zip
        ((l.toFlat.drop ((Iter.new l).runSteps ds).2.front).take
          (((Iter.new l).runSteps ds).2.back - ((Iter.new l).runSteps ds).2.front)) := by
    unfold Iter.dropDrainPairs
    simp only [Iter.len]
    rw [Iter.collectPairs_eq _ _ hlb rfl, hlist]
  have hslice : (((Iter.new l).runSteps ds).2.back -
        ((Iter.new l).runSteps ds).2.front) ≤
      (l.toFlat.drop ((Iter.new l).runSteps ds).2.front).length := by
    rw [List.length_drop, ConsListT.toFlat_length]
    omega
  have hfst : (((Iter.new l).runSteps ds).2.dropDrainPairs).map Prod.fst =
      List.range' ((Iter.new l).runSteps ds).2.front
        (((Iter.new l).runSteps ds).2.back - ((Iter.new l).runSteps ds).2.front) := by
    rw [hdp, List.map_fst_zip]
    rw [List.length_range', List.length_take]
    omega
  refine ⟨?_, ?_, ?_⟩
  · rw [List.map_append, hfst]
    have := h5
    simp only [Iter.new, Nat.sub_zero] at this
    rw [List.range_eq_range']
    exact this
  · rw [hfst]
    exact List.pairwise_lt_range' _ _
  · intro p hp
    rcases List.mem_append.mp hp with h | h
    · exact h6 p h
    · rw [hdp] at h
      refine zip_range_slice_mem _ _ ?_ p h
      rw [ConsListT.toFlat_length]
      omega

/-- C5: repeatedly stepping the consuming iterator from the back yields
the elements in reverse order eN, ..., e1; under any interleaving of
forward and backward steps no index is ever taken twice, every taken
index is in range, and once the cursors meet the taken indices are
exactly 0..N-1 (none skipped). -/
theorem double_ended_symmetry {α : Type} (l : ConsListT α) (ds : List Dir) :
    ((Iter.new l).collectBackPairs (Iter.new l).len).map Prod.snd =
      l.toFlat.reverse ∧
    (((Iter.new l).runSteps ds).1.map Prod.fst).Nodup ∧
    (∀ p ∈ ((Iter.new l).runSteps ds).1, p.1 < l.LEN) ∧
    (((Iter.new l).runSteps ds).2.front = ((Iter.new l).runSteps ds).2.back →
      (((Iter.new l).runSteps ds).1.map Prod.fst).Perm (List.range l.LEN)) := by
  obtain ⟨h1, h2, h3, h4, h5, h6⟩ :=
    Iter.runSteps_spec ds (Iter.new l) (by simp [Iter.new]) (by simp [Iter.new])
  have h5n : (((Iter.new l).runSteps ds).1.map Prod.fst ++
      List.range' ((Iter.new l).runSteps ds).2.front
        (((Iter.new l).runSteps ds).2.back -
          ((Iter.new l).runSteps ds).2.front)).Perm (List.range l.LEN) := by
    have := h5
    simp only [Iter.new, Nat.sub_zero] at this
    rw [List.range_eq_range']
    exact this
  refine ⟨?_, ?_, ?_, ?_⟩
  · simp only [Iter.len]
    rw [Iter.collectBackPairs_eq _ _ (by simp [Iter.new]) rfl]
    simp only [Iter.new, Nat.sub_zero, List.drop_zero]
    rw [List.map_reverse, List.map_snd_zip, List.take_of_length_le]
    · rw [ConsListT.toFlat_length]
    · rw [List.length_range', List.length_take]
      simp [ConsListT.toFlat_length]
  · have hnd : (((Iter.new l).runSteps ds).1.map Prod.fst ++
        List.range' ((Iter.new l).runSteps ds).2.front
          (((Iter.new l).runSteps ds).2.back -
            ((Iter.new l).runSteps ds).2.front)).Nodup :=
      h5n.nodup_iff.mpr (List.nodup_range _)
    exact hnd.of_append_left
  · intro p hp
    have hm : p.1 ∈ (((Iter.new l).runSteps ds).1.map Prod.fst) :=
      List.mem_map.mpr ⟨p, hp, rfl⟩
    have : p.1 ∈ List.range l.LEN :=
      h5n.mem_iff.mp (List.mem_append.mpr (Or.inl hm))
    exact List.mem_range.mp this
  · intro hmeet
    have := h5n
    rw [hmeet, Nat.sub_self] at this
    simpa using this

/-- C8: the concurrent par_map (and par_map_to_list) returns its
results in original positional order regardless of subtask completion
times: the value of the joined future is elementwise the operation's
value on each input, coincides with the corresponding sequential map,
and is unchanged when the operation is replaced by one with identical
per-element values but arbitrary different completion times. -/
theorem par_map_order_invariance :
    ∀ (α β U : Type) (f g : ParFunc α β) (k : ParFunc α U) (hl : HListM α),
      (∀ a, (f.call a).value = (g.call a).value) →
      (hl.par_map f).value.toList =
        (hl.toList.map fun a => (f.call a).value) ∧
      (hl.par_map f).value =
        (hl.map (liftPure fun a => (f.call a).value) ()).1 ∧
      (hl.par_map_to_list k).value.as_slice =
        (hl.toList.map fun a => (k.call a).value) ∧
      (hl.par_map f).value = (hl.par_map g).value ∧
      (hl.par_map_to_list f).value = (hl.par_map_to_list g).value := by
  intro α β U f g k hl hfg
  exact ⟨HListM.par_map_toList f hl, HListM.par_map_value f hl,
    HListM.par_map_to_list_toFlat k hl,
    (HListM.par_congr f g hfg hl).1, (HListM.par_congr f g hfg hl).2⟩

/-- C8 witness: two operations with the same per-element values but
very different completion times (one resolves at t=10, the other at
t=3, so completion order across positions differs) produce identical
par_map results on a concrete two-element sequence. -/
theorem par_map_order_invariance_witness :
    ((HListM.HCons 1 (HListM.HCons 2 HListM.HNil)).par_map
        (⟨fun a => Fut.mk 10 (a + 1)⟩ : ParFunc Nat Nat)).value =
      ((HListM.HCons 1 (HListM.HCons 2 HListM.HNil)).par_map
        (⟨fun a => Fut.mk 3 (a + 1)⟩ : ParFunc Nat Nat)).value :=
  (par_map_order_invariance Nat Nat Nat
    ⟨fun a => Fut.mk 10 (a + 1)⟩ ⟨fun a => Fut.mk 3 (a + 1)⟩
    ⟨fun a => Fut.mk 5 (a * 2)⟩
    (HListM.HCons 1 (HListM.HCons 2 HListM.HNil))
    (fun _ => rfl)).2.2.2.1

/-- C5 witness: a concrete interleaving (forward, backward, forward) of
a three-element sequence meets the cursors, and the taken indices are a
permutation of 0..2. -/
theorem double_ended_symmetry_witness :
    (((Iter.new (buildByCons [10, 20, 30])).runSteps
        [Dir.fwd, Dir.bwd, Dir.fwd]).1.map Prod.fst).Perm (List.range 3) :=
  (double_ended_symmetry (buildByCons [10, 20, 30])
    [Dir.fwd, Dir.bwd, Dir.fwd]).2.2.2 (by decide)

end FrunkUtils
